import Mathlib

/-!
Verification of the text-to-quotation pipeline of the booked_app repository.

Strings are modelled as `List Char` (one entry per Unicode code point) and
string length as the number of characters.  JavaScript regular-expression
operations on strings are modelled by executable character-list scans with
the same semantics; each definition cites the source construct it embeds.
All definitions are executable so that concrete scenarios evaluate by
`decide`.
-/

/-- Characters matched by the JavaScript regex class `\s`
(whitespace, as used by `\s+` collapsing, `String.prototype.trim`,
and the `\s*` in `SENTENCE_ENDINGS`). -/
def isWS (c : Char) : Bool :=
  c = ' ' || c = '\t' || c = '\n' || c = '\r' || c.val = 11 || c.val = 12 ||
  c.val = 0xA0 || c.val = 0x1680 || (0x2000 ≤ c.val && c.val ≤ 0x200A) ||
  c.val = 0x2028 || c.val = 0x2029 || c.val = 0x202F || c.val = 0x205F ||
  c.val = 0x3000 || c.val = 0xFEFF

/-- The sentence-terminal characters of `SENTENCE_ENDINGS = /([.!?。！？])\s*/g`
(sentence-splitter, line 8). -/
def isSentenceTerminal (c : Char) : Bool :=
  c = '.' || c = '!' || c = '?' || c = '。' || c = '！' || c = '？'

/-- JavaScript regex class `\w`: ASCII letters, digits and underscore. -/
def isWordChar (c : Char) : Bool :=
  ('a' ≤ c && c ≤ 'z') || ('A' ≤ c && c ≤ 'Z') || ('0' ≤ c && c ≤ '9') || c = '_'

/-- The allow-list of `cleanSentence`
(`[^\w\s가-힣ㄱ-ㅎㅏ-ㅣ.,!?;:'"“”‘’()[\]{}~@#$%&*\-_=+/\\<>]` deletes exactly the
characters for which this returns `false`; sentence-splitter, line 81).
Code points are used for the quote, brace and backslash characters. -/
def isAllowedChar (c : Char) : Bool :=
  isWordChar c || isWS c ||
  (0xAC00 ≤ c.val && c.val ≤ 0xD7A3) ||
  (0x3131 ≤ c.val && c.val ≤ 0x314E) ||
  (0x314F ≤ c.val && c.val ≤ 0x3163) ||
  c = '.' || c = ',' || c = '!' || c = '?' || c = ';' || c = ':' ||
  c.val = 39 || c.val = 34 ||
  c.val = 0x201C || c.val = 0x201D || c.val = 0x2018 || c.val = 0x2019 ||
  c = '(' || c = ')' || c = '[' || c = ']' ||
  c.val = 123 || c.val = 125 ||
  c = '~' || c = '@' || c = '#' || c = '$' || c = '%' || c = '&' || c = '*' ||
  c = '-' || c = '_' || c = '=' || c = '+' || c = '/' || c.val = 92 ||
  c = '<' || c = '>'

/-- `String.prototype.trim`: drop leading and trailing whitespace. -/
def trimChars (l : List Char) : List Char :=
  ((l.dropWhile isWS).reverse.dropWhile isWS).reverse

/-- `.replace(/\s+/g, ' ')`: every maximal run of whitespace characters
becomes a single space (sentence-splitter, line 31; also line 79). -/
def collapseWS : List Char → List Char
  | [] => []
  | [c] => if isWS c then [' '] else [c]
  | c1 :: c2 :: rest =>
    if isWS c1 && isWS c2 then collapseWS (c2 :: rest)
    else if isWS c1 then ' ' :: collapseWS (c2 :: rest)
    else c1 :: collapseWS (c2 :: rest)

/-- The placeholder string `<<PARAGRAPH>>` of the sentence-splitter. -/
def paragraphMarker : List Char := "<<PARAGRAPH>>".toList

/-- Whether `pat` is an initial segment of `l` (used to model literal
string search in `String.prototype.replace`). -/
def listStartsWith : List Char → List Char → Bool
  | [], _ => true
  | _ :: _, [] => false
  | p :: ps, c :: cs => p = c && listStartsWith ps cs

/-- `.replace(/\n{2,}/g, '<<PARAGRAPH>>')` (sentence-splitter, line 26):
every maximal run of two or more newlines becomes the placeholder.
The fuel argument (instantiated with the input length) only makes the
scan structurally recursive; one character is consumed per step. -/
def collapseNewlineRuns : Nat → List Char → List Char
  | 0, l => l
  | _ + 1, [] => []
  | fuel + 1, '\n' :: '\n' :: rest =>
    paragraphMarker ++ collapseNewlineRuns fuel (rest.dropWhile (fun c => c = '\n'))
  | fuel + 1, c :: rest => c :: collapseNewlineRuns fuel rest

/-- `.replace(/\n/g, ' ')` (sentence-splitter, line 27). -/
def newlinesToSpaces (l : List Char) : List Char :=
  l.map (fun c => if c = '\n' then ' ' else c)

/-- `.replace(/<<PARAGRAPH>>/g, '\n')` (sentence-splitter, line 28):
each non-overlapping occurrence of the placeholder becomes one newline. -/
def restoreParagraphMarks : Nat → List Char → List Char
  | 0, l => l
  | _ + 1, [] => []
  | fuel + 1, c :: rest =>
    if listStartsWith paragraphMarker (c :: rest) then
      '\n' :: restoreParagraphMarks fuel ((c :: rest).drop paragraphMarker.length)
    else c :: restoreParagraphMarks fuel rest

/-- Lines 25-31 of the sentence-splitter: the three newline replaces
followed by whitespace collapsing and trimming, producing `normalizedText`. -/
def normalizeOCRText (text : List Char) : List Char :=
  let step1 := collapseNewlineRuns text.length text
  let step2 := newlinesToSpaces step1
  let step3 := restoreParagraphMarks step2.length step2
  trimChars (collapseWS step3)

/-- `normalizedText.split('\n')` (sentence-splitter, line 37). -/
def splitOnNewlinesGo : List Char → List Char → List (List Char)
  | [], acc => [acc.reverse]
  | '\n' :: rest, acc => acc.reverse :: splitOnNewlinesGo rest []
  | c :: rest, acc => splitOnNewlinesGo rest (c :: acc)

/-- `normalizedText.split('\n')` (sentence-splitter, line 37). -/
def splitOnNewlines (l : List Char) : List (List Char) :=
  splitOnNewlinesGo l []

/-- `paragraph.split(SENTENCE_ENDINGS)` with `SENTENCE_ENDINGS =
/([.!?。！？])\s*/g` (sentence-splitter, line 43): every terminal character
splits the string, is emitted as its own one-character part (the capture
group), and the whitespace following it is consumed.  The Boolean records
whether the scan is inside the `\s*` tail of a match. -/
def splitSentenceParts : Bool → List Char → List Char → List (List Char)
  | _, acc, [] => [acc.reverse]
  | skipWS, acc, c :: rest =>
    if skipWS && isWS c then splitSentenceParts true acc rest
    else if isSentenceTerminal c then
      acc.reverse :: [c] :: splitSentenceParts true [] rest
    else splitSentenceParts false (c :: acc) rest

/-- `/^[.!?。！？]$/.test(part)` (sentence-splitter, line 50). -/
def isTerminalPart : List Char → Bool
  | [c] => isSentenceTerminal c
  | _ => false

/-- The part loop of `splitIntoSentences` (lines 45-64): terminal parts are
appended to the current sentence which is then pushed (trimmed) if nonempty;
the trailing fragment is pushed at the end if nonempty after trimming. -/
def buildSentencesLoop : List (List Char) → List Char → List (List Char)
  | [], current =>
    if 0 < (trimChars current).length then [trimChars current] else []
  | part :: rest, current =>
    if isTerminalPart part then
      if 0 < (trimChars (current ++ part)).length then
        trimChars (current ++ part) :: buildSentencesLoop rest []
      else buildSentencesLoop rest []
    else buildSentencesLoop rest (current ++ part)

/-- `splitIntoSentences` before its final length filter
(sentence-splitter, lines 19-65): the guard for empty input, the
normalisation, the paragraph split, and the per-paragraph sentence loop. -/
def splitIntoSentencesRaw (text : List Char) : List (List Char) :=
  if (trimChars text).length = 0 then []
  else
    (splitOnNewlines (normalizeOCRText text)).flatMap fun p =>
      if (trimChars p).length = 0 then []
      else buildSentencesLoop (splitSentenceParts false [] p) []

/-- `splitIntoSentences` (sentence-splitter, lines 19-69), including the
final `sentences.filter(s => s.length >= 5)`. -/
def splitIntoSentences (text : List Char) : List (List Char) :=
  (splitIntoSentencesRaw text).filter (fun s => 5 ≤ s.length)

/-- `cleanSentence` (sentence-splitter, lines 74-82): trim, collapse
whitespace runs to one space, then delete characters outside the allow-list. -/
def cleanSentence (sentence : List Char) : List Char :=
  (collapseWS (trimChars sentence)).filter isAllowedChar

/-- `processOCRText` (sentence-splitter, lines 129-143): split, clean each
sentence, then filter again by length at least 5. -/
def processOCRText (text : List Char) : List (List Char) :=
  ((splitIntoSentences text).map cleanSentence).filter (fun s => 5 ≤ s.length)

/-- Claim C1: every sentence in the list returned by `processOCRText`
has length at least 5; the length filter runs again after cleaning, so
cleaning can never leave a shorter sentence in the output. -/
theorem processOCRText_no_short_sentence (t s : List Char)
    (hs : s ∈ processOCRText t) : 5 ≤ s.length := by
  have h := List.mem_filter.mp hs
  exact of_decide_eq_true h.2

/-- Witness for C1 at a concrete input: `"abcdef"` is in the output of
`processOCRText "abcdef"`, and the theorem yields its length bound. -/
theorem processOCRText_no_short_sentence_witness :
    5 ≤ ("abcdef".toList).length :=
  processOCRText_no_short_sentence ("abcdef".toList) ("abcdef".toList) (by decide)

/-- Claim C2, counterexample: the splitter also splits at a terminal
punctuation character that is NOT followed by whitespace (the regex tail is
`\s*`, zero or more).  In `"ab.cdefg hijk"` the period is followed directly
by `c`, yet `"ab."` is emitted as its own sentence (then dropped by the
length-5 filter), so the output is not the single unsplit sentence. -/
theorem splitIntoSentences_splits_without_whitespace :
    splitIntoSentencesRaw "ab.cdefg hijk".toList = ["ab.".toList, "cdefg hijk".toList] ∧
    splitIntoSentences "ab.cdefg hijk".toList = ["cdefg hijk".toList] ∧
    splitIntoSentences "ab.cdefg hijk".toList ≠ ["ab.cdefg hijk".toList] :=
  ⟨by decide, by decide, by decide⟩

/-- Claim C2 as amended: the splitter splits at every occurrence of a
sentence-terminal character, whether or not whitespace follows (any
following whitespace is consumed by the split), the terminal character is
kept as the last character of the preceding emitted sentence, and the
Korean two-sentence input yields exactly two sentences, each retaining its
terminal period. -/
theorem splitIntoSentences_korean_scenario :
    splitIntoSentences "두려움 그 자체뿐이다. 용기란 두려움이 없는 것이 아니라, 두려움을 극복하는 것이다.".toList =
      ["두려움 그 자체뿐이다.".toList, "용기란 두려움이 없는 것이 아니라, 두려움을 극복하는 것이다.".toList] ∧
    ("두려움 그 자체뿐이다.".toList).getLast? = some '.' ∧
    ("용기란 두려움이 없는 것이 아니라, 두려움을 극복하는 것이다.".toList).getLast? = some '.' ∧
    splitIntoSentencesRaw "ab.cdefg hijk".toList = ["ab.".toList, "cdefg hijk".toList] :=
  ⟨by decide, by decide, by decide, by decide⟩

/-- The first element surviving `dropWhile p` fails `p`. -/
theorem dropWhile_head_false (p : Char → Bool) (l : List Char) :
    ∀ c, (l.dropWhile p).head? = some c → p c = false := by
  induction l with
  | nil => intro c hc; simp at hc
  | cons a l ih =>
    intro c hc
    by_cases h : p a
    · rw [List.dropWhile_cons, if_pos h] at hc; exact ih c hc
    · rw [List.dropWhile_cons, if_neg h] at hc
      simp at hc
      rw [← hc]
      exact eq_false_of_ne_true h

/-- `dropWhile` only removes a prefix, so a nonempty result keeps the last
element. -/
theorem getLast?_dropWhile (p : Char → Bool) (l : List Char)
    (h : l.dropWhile p ≠ []) : (l.dropWhile p).getLast? = l.getLast? := by
  induction l with
  | nil => simp at h
  | cons a l ih =>
    by_cases hp : p a
    · rw [List.dropWhile_cons, if_pos hp] at h ⊢
      have hl : l ≠ [] := by
        intro hnil; rw [hnil] at h; simp at h
      rw [ih h]
      cases l with
      | nil => exact absurd rfl hl
      | cons b m => rw [List.getLast?_cons_cons]
    · rw [List.dropWhile_cons, if_neg hp]

/-- A list whose head fails `p` is unchanged by `dropWhile p`. -/
theorem dropWhile_eq_self_of_head (p : Char → Bool) (l : List Char)
    (h : ∀ c, l.head? = some c → p c = false) : l.dropWhile p = l := by
  cases l with
  | nil => rfl
  | cons a m =>
    rw [List.dropWhile_cons, if_neg]
    intro ha
    exact absurd (h a rfl) (by simp [ha])

/-- The head of a trimmed string is not whitespace. -/
theorem trimChars_head (l : List Char) :
    ∀ c, (trimChars l).head? = some c → isWS c = false := by
  intro c hc
  unfold trimChars at hc
  rw [List.head?_reverse] at hc
  by_cases hv : ((l.dropWhile isWS).reverse.dropWhile isWS) = []
  · rw [hv] at hc; simp at hc
  · rw [getLast?_dropWhile _ _ hv, List.getLast?_reverse] at hc
    exact dropWhile_head_false isWS l c hc

/-- The last character of a trimmed string is not whitespace. -/
theorem trimChars_getLast (l : List Char) :
    ∀ c, (trimChars l).getLast? = some c → isWS c = false := by
  intro c hc
  unfold trimChars at hc
  rw [List.getLast?_reverse] at hc
  exact dropWhile_head_false isWS (l.dropWhile isWS).reverse c hc

/-- Trimming a string with no whitespace at either end is the identity. -/
theorem trimChars_of_trimmed (l : List Char)
    (h1 : ∀ c, l.head? = some c → isWS c = false)
    (h2 : ∀ c, l.getLast? = some c → isWS c = false) : trimChars l = l := by
  unfold trimChars
  rw [dropWhile_eq_self_of_head isWS l h1]
  rw [dropWhile_eq_self_of_head isWS l.reverse
    (fun c hc => h2 c (by rwa [List.head?_reverse] at hc))]
  exact List.reverse_reverse l

/-- `String.prototype.trim` is idempotent. -/
theorem trimChars_idem (l : List Char) : trimChars (trimChars l) = trimChars l :=
  trimChars_of_trimmed (trimChars l) (trimChars_head l) (trimChars_getLast l)

/-- Prepending a non-whitespace character commutes with whitespace
collapsing. -/
theorem collapseWS_cons_of_not_ws (c : Char) (m : List Char)
    (h : isWS c = false) : collapseWS (c :: m) = c :: collapseWS m := by
  cases m with
  | nil => simp [collapseWS, h]
  | cons d m2 => simp [collapseWS, h]

/-- Whitespace collapsing never maps a nonempty string to the empty one. -/
theorem collapseWS_ne_nil (l : List Char) : l ≠ [] → collapseWS l ≠ [] := by
  induction l using collapseWS.induct with
  | case1 => exact fun h => absurd rfl h
  | case2 c h1 => intro _; simp [collapseWS, h1]
  | case3 c h1 => intro _; simp [collapseWS, h1]
  | case4 c1 c2 rest h1 ih =>
    intro _
    have e1 : collapseWS (c1 :: c2 :: rest) = collapseWS (c2 :: rest) := by
      simp only [collapseWS]; rw [if_pos h1]
    rw [e1]; exact ih (by simp)
  | case5 c1 c2 rest h1 h2 ih =>
    intro _
    have e1 : collapseWS (c1 :: c2 :: rest) = ' ' :: collapseWS (c2 :: rest) := by
      simp only [collapseWS]; rw [if_neg h1, if_pos h2]
    rw [e1]; simp
  | case6 c1 c2 rest h1 h2 ih =>
    intro _
    have e1 : collapseWS (c1 :: c2 :: rest) = c1 :: collapseWS (c2 :: rest) := by
      simp only [collapseWS]; rw [if_neg h1, if_neg h2]
    rw [e1]; simp

/-- Every character of a collapsed string is a space or a character of the
input. -/
theorem collapseWS_mem (l : List Char) :
    ∀ c, c ∈ collapseWS l → c = ' ' ∨ c ∈ l := by
  induction l using collapseWS.induct with
  | case1 => intro c hc; simp [collapseWS] at hc
  | case2 d h1 => intro c hc; simp [collapseWS, h1] at hc; exact Or.inl hc
  | case3 d h1 => intro c hc; simp [collapseWS, h1] at hc; exact Or.inr (by simp [hc])
  | case4 c1 c2 rest h1 ih =>
    intro c hc
    have e1 : collapseWS (c1 :: c2 :: rest) = collapseWS (c2 :: rest) := by
      simp only [collapseWS]; rw [if_pos h1]
    rw [e1] at hc
    rcases ih c hc with h2 | h2
    · exact Or.inl h2
    · exact Or.inr (List.mem_cons_of_mem _ h2)
  | case5 c1 c2 rest h1 h2 ih =>
    intro c hc
    have e1 : collapseWS (c1 :: c2 :: rest) = ' ' :: collapseWS (c2 :: rest) := by
      simp only [collapseWS]; rw [if_neg h1, if_pos h2]
    rw [e1] at hc
    rcases List.mem_cons.mp hc with rfl | h3
    · exact Or.inl rfl
    · rcases ih c h3 with h4 | h4
      · exact Or.inl h4
      · exact Or.inr (List.mem_cons_of_mem _ h4)
  | case6 c1 c2 rest h1 h2 ih =>
    intro c hc
    have e1 : collapseWS (c1 :: c2 :: rest) = c1 :: collapseWS (c2 :: rest) := by
      simp only [collapseWS]; rw [if_neg h1, if_neg h2]
    rw [e1] at hc
    rcases List.mem_cons.mp hc with rfl | h3
    · exact Or.inr (by simp)
    · rcases ih c h3 with h4 | h4
      · exact Or.inl h4
      · exact Or.inr (List.mem_cons_of_mem _ h4)

/-- Whitespace collapsing is idempotent. -/
theorem collapseWS_idem (l : List Char) :
    collapseWS (collapseWS l) = collapseWS l := by
  induction l using collapseWS.induct with
  | case1 => rfl
  | case2 c h1 =>
    have e : collapseWS [c] = [' '] := by simp [collapseWS, h1]
    rw [e]; decide
  | case3 c h1 =>
    have e : collapseWS [c] = [c] := by simp [collapseWS, h1]
    rw [e]; exact e
  | case4 c1 c2 rest h1 ih =>
    have e1 : collapseWS (c1 :: c2 :: rest) = collapseWS (c2 :: rest) := by
      simp only [collapseWS]; rw [if_pos h1]
    rw [e1]; exact ih
  | case5 c1 c2 rest h1 h2 ih =>
    have hc2 : isWS c2 = false := by
      cases hx : isWS c2
      · rfl
      · exact absurd (by simp [h2, hx]) h1
    have e1 : collapseWS (c1 :: c2 :: rest) = ' ' :: collapseWS (c2 :: rest) := by
      simp only [collapseWS]; rw [if_neg h1, if_pos h2]
    have e2 : collapseWS (c2 :: rest) = c2 :: collapseWS rest :=
      collapseWS_cons_of_not_ws c2 rest hc2
    have e3 : collapseWS (' ' :: c2 :: collapseWS rest) =
        ' ' :: collapseWS (c2 :: collapseWS rest) := by
      simp only [collapseWS]
      rw [if_neg (by simp [hc2]), if_pos (by decide)]
    rw [e1, e2, e3, ← e2, ih]
  | case6 c1 c2 rest h1 h2 ih =>
    have e1 : collapseWS (c1 :: c2 :: rest) = c1 :: collapseWS (c2 :: rest) := by
      simp only [collapseWS]; rw [if_neg h1, if_neg h2]
    rw [e1, collapseWS_cons_of_not_ws c1 _ (eq_false_of_ne_true h2), ih]

/-- If the input has a non-whitespace last character, so does its collapse. -/
theorem collapseWS_getLast (l : List Char) :
    (∀ d, l.getLast? = some d → isWS d = false) →
    ∀ c, (collapseWS l).getLast? = some c → isWS c = false := by
  induction l using collapseWS.induct with
  | case1 => intro _ c hc; simp [collapseWS] at hc
  | case2 d h1 =>
    intro hl c hc
    exact absurd (hl d rfl) (by simp [h1])
  | case3 d h1 =>
    intro hl c hc
    have e : collapseWS [d] = [d] := by simp [collapseWS, h1]
    rw [e] at hc
    simp at hc
    rw [← hc]; exact eq_false_of_ne_true h1
  | case4 c1 c2 rest h1 ih =>
    intro hl c hc
    have e1 : collapseWS (c1 :: c2 :: rest) = collapseWS (c2 :: rest) := by
      simp only [collapseWS]; rw [if_pos h1]
    rw [e1] at hc
    exact ih (fun d hd => hl d (by rw [List.getLast?_cons_cons]; exact hd)) c hc
  | case5 c1 c2 rest h1 h2 ih =>
    intro hl c hc
    have e1 : collapseWS (c1 :: c2 :: rest) = ' ' :: collapseWS (c2 :: rest) := by
      simp only [collapseWS]; rw [if_neg h1, if_pos h2]
    rw [e1] at hc
    cases hx : collapseWS (c2 :: rest) with
    | nil => exact absurd hx (collapseWS_ne_nil (c2 :: rest) (by simp))
    | cons a m =>
      rw [hx, List.getLast?_cons_cons, ← hx] at hc
      exact ih (fun d hd => hl d (by rw [List.getLast?_cons_cons]; exact hd)) c hc
  | case6 c1 c2 rest h1 h2 ih =>
    intro hl c hc
    have e1 : collapseWS (c1 :: c2 :: rest) = c1 :: collapseWS (c2 :: rest) := by
      simp only [collapseWS]; rw [if_neg h1, if_neg h2]
    rw [e1] at hc
    cases hx : collapseWS (c2 :: rest) with
    | nil => exact absurd hx (collapseWS_ne_nil (c2 :: rest) (by simp))
    | cons a m =>
      rw [hx, List.getLast?_cons_cons, ← hx] at hc
      exact ih (fun d hd => hl d (by rw [List.getLast?_cons_cons]; exact hd)) c hc

/-- Every character of a trimmed string is a character of the input. -/
theorem mem_trimChars (l : List Char) (c : Char) (h : c ∈ trimChars l) :
    c ∈ l := by
  unfold trimChars at h
  rw [List.mem_reverse] at h
  have h2 := (List.dropWhile_sublist isWS).mem h
  rw [List.mem_reverse] at h2
  exact (List.dropWhile_sublist isWS).mem h2

/-- Collapsing an already-trimmed string yields a trimmed string. -/
theorem trimChars_collapseWS_trimChars (w : List Char) :
    trimChars (collapseWS (trimChars w)) = collapseWS (trimChars w) := by
  apply trimChars_of_trimmed
  · intro c hc
    cases hw : trimChars w with
    | nil => rw [hw] at hc; simp [collapseWS] at hc
    | cons a m =>
      have ha : isWS a = false := trimChars_head w a (by rw [hw]; rfl)
      rw [hw, collapseWS_cons_of_not_ws a m ha] at hc
      simp at hc
      rw [← hc]; exact ha
  · exact collapseWS_getLast (trimChars w) (trimChars_getLast w)

/-- Claim C3, counterexample: `cleanSentence` is not idempotent.  Deleting
the disallowed `|` from `"a | b"` happens after whitespace collapsing and
leaves the double space in `"a  b"`, which a second application collapses
to `"a b"`. -/
theorem cleanSentence_not_idempotent :
    cleanSentence "a | b".toList = "a  b".toList ∧
    cleanSentence (cleanSentence "a | b".toList) = "a b".toList ∧
    cleanSentence (cleanSentence "a | b".toList) ≠ cleanSentence "a | b".toList :=
  ⟨by decide, by decide, by decide⟩

/-- Every character of a cleaned sentence is on the allow-list. -/
theorem cleanSentence_mem_allowed (s : List Char) (c : Char)
    (h : c ∈ cleanSentence s) : isAllowedChar c = true :=
  (List.mem_filter.mp h).2

/-- Trim-then-collapse preserves the allow-list. -/
theorem collapse_trim_allowed (l : List Char)
    (h : ∀ c ∈ l, isAllowedChar c = true) :
    ∀ c ∈ collapseWS (trimChars l), isAllowedChar c = true := by
  intro c hc
  rcases collapseWS_mem (trimChars l) c hc with rfl | hc2
  · decide
  · exact h c (mem_trimChars l c hc2)

/-- On allow-listed input the deletion pass of `cleanSentence` is the
identity. -/
theorem cleanSentence_of_allowed (l : List Char)
    (h : ∀ c ∈ l, isAllowedChar c = true) :
    cleanSentence l = collapseWS (trimChars l) := by
  unfold cleanSentence
  exact List.filter_eq_self.mpr (collapse_trim_allowed l h)

/-- Claim C3 as amended: `cleanSentence` is idempotent from the second
application on (equivalently, idempotent on strings of allow-listed
characters): for every string `s`,
`cleanSentence (cleanSentence (cleanSentence s)) = cleanSentence (cleanSentence s)`. -/
theorem cleanSentence_idem_after_first (s : List Char) :
    cleanSentence (cleanSentence (cleanSentence s)) =
      cleanSentence (cleanSentence s) := by
  have hall : ∀ c ∈ cleanSentence s, isAllowedChar c = true :=
    fun c hc => cleanSentence_mem_allowed s c hc
  have h2 : cleanSentence (cleanSentence s) =
      collapseWS (trimChars (cleanSentence s)) :=
    cleanSentence_of_allowed (cleanSentence s) hall
  have hallz : ∀ c ∈ collapseWS (trimChars (cleanSentence s)), isAllowedChar c = true :=
    collapse_trim_allowed (cleanSentence s) hall
  have h3 := cleanSentence_of_allowed (collapseWS (trimChars (cleanSentence s))) hallz
  rw [h2, h3, trimChars_collapseWS_trimChars (cleanSentence s),
    collapseWS_idem (trimChars (cleanSentence s))]

/-- Whitespace characters surviving a collapse are spaces. -/
theorem collapseWS_ws_space (l : List Char) :
    ∀ c ∈ collapseWS l, isWS c = true → c = ' ' := by
  induction l using collapseWS.induct with
  | case1 => intro c hc; simp [collapseWS] at hc
  | case2 d h1 => intro c hc _; simp [collapseWS, h1] at hc; exact hc
  | case3 d h1 =>
    intro c hc hws
    simp [collapseWS, h1] at hc
    rw [hc] at hws
    exact absurd hws (by simp [h1])
  | case4 c1 c2 rest h1 ih =>
    intro c hc hws
    have e1 : collapseWS (c1 :: c2 :: rest) = collapseWS (c2 :: rest) := by
      simp only [collapseWS]; rw [if_pos h1]
    rw [e1] at hc
    exact ih c hc hws
  | case5 c1 c2 rest h1 h2 ih =>
    intro c hc hws
    have e1 : collapseWS (c1 :: c2 :: rest) = ' ' :: collapseWS (c2 :: rest) := by
      simp only [collapseWS]; rw [if_neg h1, if_pos h2]
    rw [e1] at hc
    rcases List.mem_cons.mp hc with rfl | h3
    · rfl
    · exact ih c h3 hws
  | case6 c1 c2 rest h1 h2 ih =>
    intro c hc hws
    have e1 : collapseWS (c1 :: c2 :: rest) = c1 :: collapseWS (c2 :: rest) := by
      simp only [collapseWS]; rw [if_neg h1, if_neg h2]
    rw [e1] at hc
    rcases List.mem_cons.mp hc with rfl | h3
    · exact absurd hws (by simp [h2])
    · exact ih c h3 hws

/-- If a trimmed string is empty, the input was entirely whitespace. -/
theorem trimChars_eq_nil (l : List Char) (h : trimChars l = []) :
    ∀ c ∈ l, isWS c = true := by
  intro c hc
  unfold trimChars at h
  rw [List.reverse_eq_nil_iff, List.dropWhile_eq_nil_iff] at h
  rcases List.mem_append.mp
    (by rw [List.takeWhile_append_dropWhile isWS l]; exact hc :
        c ∈ l.takeWhile isWS ++ l.dropWhile isWS) with h2 | h2
  · exact List.mem_takeWhile_imp h2
  · exact h c (List.mem_reverse.mpr h2)

/-- No character of the placeholder `<<PARAGRAPH>>` is sentence-terminal. -/
theorem paragraphMarker_no_terminal :
    ∀ c ∈ paragraphMarker, isSentenceTerminal c = false := by decide

/-- The newline-run replace does not introduce sentence-terminal
characters. -/
theorem collapseNewlineRuns_no_terminal (fuel : Nat) (l : List Char) :
    (∀ c ∈ l, isSentenceTerminal c = false) →
    ∀ c ∈ collapseNewlineRuns fuel l, isSentenceTerminal c = false := by
  induction fuel, l using collapseNewlineRuns.induct with
  | case1 l => intro h c hc; rw [collapseNewlineRuns.eq_1] at hc; exact h c hc
  | case2 n => intro h c hc; rw [collapseNewlineRuns.eq_2] at hc; simp at hc
  | case3 fuel rest ih =>
    intro h c hc
    rw [collapseNewlineRuns.eq_3] at hc
    rcases List.mem_append.mp hc with h2 | h2
    · exact paragraphMarker_no_terminal c h2
    · refine ih ?_ c h2
      intro d hd
      exact h d (List.mem_cons_of_mem _ (List.mem_cons_of_mem _
        ((List.dropWhile_sublist _).mem hd)))
  | case4 fuel c0 rest hne ih =>
    intro h c hc
    rw [collapseNewlineRuns.eq_4 fuel c0 rest hne] at hc
    rcases List.mem_cons.mp hc with rfl | h2
    · exact h c (by simp)
    · exact ih (fun d hd => h d (List.mem_cons_of_mem _ hd)) c h2

/-- The newline-to-space replace does not introduce sentence-terminal
characters. -/
theorem newlinesToSpaces_no_terminal (l : List Char)
    (h : ∀ c ∈ l, isSentenceTerminal c = false) :
    ∀ c ∈ newlinesToSpaces l, isSentenceTerminal c = false := by
  intro c hc
  unfold newlinesToSpaces at hc
  rcases List.mem_map.mp hc with ⟨d, hd, rfl⟩
  by_cases hdn : d = '\n'
  · simp [hdn]; decide
  · simp [hdn]; exact h d hd

/-- The placeholder-to-newline replace does not introduce sentence-terminal
characters. -/
theorem restoreParagraphMarks_no_terminal (fuel : Nat) (l : List Char) :
    (∀ c ∈ l, isSentenceTerminal c = false) →
    ∀ c ∈ restoreParagraphMarks fuel l, isSentenceTerminal c = false := by
  induction fuel, l using restoreParagraphMarks.induct with
  | case1 l => intro h c hc; rw [restoreParagraphMarks.eq_1] at hc; exact h c hc
  | case2 n => intro h c hc; rw [restoreParagraphMarks.eq_2] at hc; simp at hc
  | case3 fuel c0 rest hpm ih =>
    intro h c hc
    rw [restoreParagraphMarks.eq_3 fuel c0 rest] at hc
    rw [if_pos hpm] at hc
    rcases List.mem_cons.mp hc with rfl | h2
    · decide
    · exact ih (fun d hd => h d (List.drop_subset _ _ hd)) c h2
  | case4 fuel c0 rest hpm ih =>
    intro h c hc
    rw [restoreParagraphMarks.eq_3 fuel c0 rest] at hc
    rw [if_neg hpm] at hc
    rcases List.mem_cons.mp hc with rfl | h2
    · exact h c (by simp)
    · exact ih (fun d hd => h d (List.mem_cons_of_mem _ hd)) c h2

/-- The whole normalisation step (newline replaces, collapse, trim) does
not introduce sentence-terminal characters. -/
theorem normalizeOCRText_no_terminal (t : List Char)
    (h : ∀ c ∈ t, isSentenceTerminal c = false) :
    ∀ c ∈ normalizeOCRText t, isSentenceTerminal c = false := by
  intro c hc
  unfold normalizeOCRText at hc
  simp only [] at hc
  have h1 := collapseNewlineRuns_no_terminal t.length t h
  have h2 := newlinesToSpaces_no_terminal _ h1
  have h3 := restoreParagraphMarks_no_terminal
    (newlinesToSpaces (collapseNewlineRuns t.length t)).length
    (newlinesToSpaces (collapseNewlineRuns t.length t)) h2
  have hc2 := mem_trimChars _ _ hc
  rcases collapseWS_mem _ _ hc2 with rfl | hc3
  · decide
  · exact h3 c hc3

/-- The normalised text contains no newline: the whitespace collapse turns
every whitespace character (including restored paragraph newlines) into a
space. -/
theorem normalizeOCRText_no_newline (t : List Char) :
    '\n' ∉ normalizeOCRText t := by
  intro hc
  unfold normalizeOCRText at hc
  simp only [] at hc
  have hc2 := mem_trimChars _ _ hc
  have := collapseWS_ws_space _ _ hc2 (by decide)
  simp at this

/-- Splitting on newlines is trivial when the string contains none. -/
theorem splitOnNewlinesGo_no_newline :
    ∀ (l acc : List Char), '\n' ∉ l → splitOnNewlinesGo l acc = [acc.reverse ++ l] := by
  intro l acc
  induction l, acc using splitOnNewlinesGo.induct with
  | case1 acc => intro _; simp [splitOnNewlinesGo]
  | case2 rest acc ih => intro h; exact absurd (by simp) h
  | case3 c rest acc hne ih =>
    intro h
    rw [splitOnNewlinesGo.eq_3 acc c rest hne,
      ih (fun hin => h (List.mem_cons_of_mem _ hin))]
    simp

/-- The sentence-ending split is trivial on a string without terminal
characters. -/
theorem splitSentenceParts_no_terminal :
    ∀ (p acc : List Char), (∀ c ∈ p, isSentenceTerminal c = false) →
    splitSentenceParts false acc p = [acc.reverse ++ p] := by
  intro p
  induction p with
  | nil => intro acc h; simp [splitSentenceParts]
  | cons c rest ih =>
    intro acc h
    have hct : isSentenceTerminal c = false := h c (by simp)
    have e : splitSentenceParts false acc (c :: rest) =
        splitSentenceParts false (c :: acc) rest := by
      simp [splitSentenceParts, hct]
    rw [e, ih (c :: acc) (fun d hd => h d (List.mem_cons_of_mem _ hd))]
    simp

/-- The sentence loop on a single non-terminal part emits the trimmed part. -/
theorem buildSentencesLoop_single (p : List Char) (hlen : p.length ≠ 1) :
    buildSentencesLoop [p] [] =
      if 0 < (trimChars p).length then [trimChars p] else [] := by
  have ht : isTerminalPart p = false := by
    cases p with
    | nil => rfl
    | cons c rest =>
      cases rest with
      | nil => simp at hlen
      | cons d rest2 => rfl
  simp [buildSentencesLoop, ht]

/-- Claim C7, counterexample: on text with no sentence-terminal characters
the splitter does NOT return the whole trimmed input verbatim whenever the
input contains internal whitespace runs — normalisation collapses them.
`"hello  world"` (two spaces, no terminal punctuation, trimmed length 12,
at least one non-whitespace character) yields `["hello world"]`, not
`["hello  world"]`. -/
theorem splitIntoSentences_whitespace_counterexample :
    (∀ c ∈ "hello  world".toList, isSentenceTerminal c = false) ∧
    (∃ c ∈ "hello  world".toList, isWS c = false) ∧
    5 ≤ (trimChars "hello  world".toList).length ∧
    splitIntoSentences "hello  world".toList = ["hello world".toList] ∧
    splitIntoSentences "hello  world".toList ≠ [trimChars "hello  world".toList] :=
  ⟨by decide, by decide, by decide, by decide, by decide⟩

/-- Claim C7 as amended: for input with at least one non-whitespace
character and no sentence-terminal character, segmentation returns exactly
one sentence, equal to the whitespace-normalised trimmed input text
(`normalizeOCRText`; this equals the whole trimmed input whenever the
input has no newline and no internal whitespace run), provided that
normalised text has length at least 5. -/
theorem splitIntoSentences_no_terminal_single (t : List Char)
    (hterm : ∀ c ∈ t, isSentenceTerminal c = false)
    (hnws : ∃ c ∈ t, isWS c = false)
    (hlen : 5 ≤ (normalizeOCRText t).length) :
    splitIntoSentences t = [normalizeOCRText t] := by
  obtain ⟨c0, hc0, hc0w⟩ := hnws
  have hguard : ¬ (trimChars t).length = 0 := by
    intro h0
    have h1 := trimChars_eq_nil t (List.length_eq_zero.mp h0) c0 hc0
    simp [h1] at hc0w
  have hnt : ∀ c ∈ normalizeOCRText t, isSentenceTerminal c = false :=
    normalizeOCRText_no_terminal t hterm
  have hnl : '\n' ∉ normalizeOCRText t := normalizeOCRText_no_newline t
  have htrim : trimChars (normalizeOCRText t) = normalizeOCRText t := by
    unfold normalizeOCRText
    simp only []
    exact trimChars_idem _
  have hsplit : splitOnNewlines (normalizeOCRText t) = [normalizeOCRText t] := by
    unfold splitOnNewlines
    rw [splitOnNewlinesGo_no_newline _ [] hnl]
    simp
  have hparts : splitSentenceParts false [] (normalizeOCRText t) = [normalizeOCRText t] := by
    rw [splitSentenceParts_no_terminal _ [] hnt]
    simp
  have hplen1 : (normalizeOCRText t).length ≠ 1 := by omega
  unfold splitIntoSentences splitIntoSentencesRaw
  rw [if_neg hguard, hsplit]
  simp only [List.flatMap_cons, List.flatMap_nil, List.append_nil]
  rw [htrim]
  rw [if_neg (by omega : ¬ (normalizeOCRText t).length = 0)]
  rw [hparts, buildSentencesLoop_single _ hplen1, htrim]
  rw [if_pos (by omega : 0 < (normalizeOCRText t).length)]
  simp [List.filter_cons, hlen]

/-- Witness for C7 (amended) at a concrete input: `"hello world"` has no
terminal punctuation and yields exactly its normalised self. -/
theorem splitIntoSentences_no_terminal_single_witness :
    splitIntoSentences "hello world".toList = [normalizeOCRText "hello world".toList] :=
  splitIntoSentences_no_terminal_single ("hello world".toList)
    (by decide) (by decide) (by decide)

/-- The candidate record `ExtractedSentence` of the OCR-result screen
(`id`, `content`, `imageId`, `selected`, `isUnderlined`); the optional
`isUnderlined` is modelled as a `Bool` with `undefined = false`, which is
how the comparator and the UI consume it. -/
structure Candidate where
  id : String
  content : String
  imageId : String
  selected : Bool
  isUnderlined : Bool
deriving DecidableEq

/-- The comparator of `allSentences.sort` (ocr-result, lines 165-169) and
`imageSentences.sort` (lines 396-400): `-1` when only the first candidate
is underlined, `1` when only the second is, else `0`. -/
def underlineCompare (a b : Candidate) : Int :=
  if a.isUnderlined && !b.isUnderlined then -1
  else if !a.isUnderlined && b.isUnderlined then 1
  else 0

/-- One step of a stable sort: insert `x` after every element that does not
compare greater than it (ties keep the earlier element first). -/
def insertStable (cmp : Candidate → Candidate → Int) (x : Candidate) :
    List Candidate → List Candidate
  | [] => [x]
  | y :: ys => if cmp y x ≤ 0 then y :: insertStable cmp x ys else x :: y :: ys

/-- `Array.prototype.sort` with `underlineCompare`, as called on the
candidate list for one image.  ECMAScript (ES2019) requires `sort` to be
stable, so it is modelled by a stable insertion sort. -/
def sortUnderlinedFirst (l : List Candidate) : List Candidate :=
  l.foldl (fun acc x => insertStable underlineCompare x acc) []

/-- Inserting an underlined candidate into a partitioned list places it at
the end of the underlined block. -/
theorem insertStable_underlined (x : Candidate) (hu : x.isUnderlined = true) :
    ∀ (A B : List Candidate), (∀ a ∈ A, a.isUnderlined = true) →
    (∀ b ∈ B, b.isUnderlined = false) →
    insertStable underlineCompare x (A ++ B) = A ++ x :: B := by
  intro A
  induction A with
  | nil =>
    intro B hA hB
    cases B with
    | nil => simp [insertStable]
    | cons b bs =>
      have hb := hB b (by simp)
      have hc : underlineCompare b x = 1 := by simp [underlineCompare, hb, hu]
      simp only [List.nil_append, insertStable, hc]
      rw [if_neg (by decide)]
  | cons a as ih =>
    intro B hA hB
    have ha := hA a (by simp)
    have hc : underlineCompare a x = 0 := by simp [underlineCompare, ha, hu]
    simp only [List.cons_append, insertStable, hc, List.append_eq]
    rw [if_pos (by decide)]
    rw [ih B (fun y hy => hA y (by simp [hy])) hB]

/-- Inserting a non-underlined candidate into a non-underlined list places
it at the end. -/
theorem insertStable_nonu_tail (x : Candidate) (hu : x.isUnderlined = false) :
    ∀ (B : List Candidate), (∀ b ∈ B, b.isUnderlined = false) →
    insertStable underlineCompare x B = B ++ [x] := by
  intro B
  induction B with
  | nil => intro _; simp [insertStable]
  | cons b bs ih =>
    intro hB
    have hb := hB b (by simp)
    have hc : underlineCompare b x = 0 := by simp [underlineCompare, hb, hu]
    simp only [insertStable, hc]
    rw [if_pos (by decide)]
    rw [ih (fun y hy => hB y (by simp [hy]))]
    rfl

/-- Inserting a non-underlined candidate into a partitioned list places it
at the very end. -/
theorem insertStable_nonu (x : Candidate) (hu : x.isUnderlined = false) :
    ∀ (A B : List Candidate), (∀ a ∈ A, a.isUnderlined = true) →
    (∀ b ∈ B, b.isUnderlined = false) →
    insertStable underlineCompare x (A ++ B) = A ++ (B ++ [x]) := by
  intro A
  induction A with
  | nil =>
    intro B hA hB
    simp only [List.nil_append]
    exact insertStable_nonu_tail x hu B hB
  | cons a as ih =>
    intro B hA hB
    have ha := hA a (by simp)
    have hc : underlineCompare a x = -1 := by simp [underlineCompare, ha, hu]
    simp only [List.cons_append, insertStable, hc, List.append_eq]
    rw [if_pos (by decide)]
    rw [ih B (fun y hy => hA y (by simp [hy])) hB]

/-- The sorting fold keeps the underlined block before the rest, appending
each new candidate at the end of its block. -/
theorem foldl_insertStable_partition :
    ∀ (l A B : List Candidate), (∀ a ∈ A, a.isUnderlined = true) →
    (∀ b ∈ B, b.isUnderlined = false) →
    List.foldl (fun acc x => insertStable underlineCompare x acc) (A ++ B) l =
      (A ++ l.filter (fun c => c.isUnderlined)) ++
        (B ++ l.filter (fun c => !c.isUnderlined)) := by
  intro l
  induction l with
  | nil => intro A B hA hB; simp
  | cons x xs ih =>
    intro A B hA hB
    simp only [List.foldl_cons]
    cases hx : x.isUnderlined with
    | true =>
      rw [insertStable_underlined x hx A B hA hB,
        show A ++ x :: B = (A ++ [x]) ++ B by simp]
      rw [ih (A ++ [x]) B ?_ hB]
      · simp [List.filter_cons, hx]
      · intro a ha
        rcases List.mem_append.mp ha with h | h
        · exact hA a h
        · simp at h; rw [h]; exact hx
    | false =>
      rw [insertStable_nonu x hx A B hA hB,
        show A ++ (B ++ [x]) = A ++ (B ++ [x]) from rfl]
      rw [ih A (B ++ [x]) hA ?_]
      · simp [List.filter_cons, hx]
      · intro b hb
        rcases List.mem_append.mp hb with h | h
        · exact hB b h
        · simp at h; rw [h]; exact hx

/-- Claim C4: the final candidate ordering is the stable partition — every
underlined candidate precedes every non-underlined one, and inside each of
the two blocks the original emission order is kept verbatim (the sort
never reorders by content). -/
theorem sortUnderlinedFirst_partition (l : List Candidate) :
    sortUnderlinedFirst l =
      l.filter (fun c => c.isUnderlined) ++ l.filter (fun c => !c.isUnderlined) := by
  have h := foldl_insertStable_partition l [] [] (by simp) (by simp)
  simpa [sortUnderlinedFirst] using h

/-- `toggleSentence` of the capture store (capture-store, lines 76-81) and
`handleToggleSentence` of the OCR-result screen (ocr-result, lines
198-202): map over the candidates, flipping `selected` on an id match. -/
def toggleSentence (tid : String) (l : List Candidate) : List Candidate :=
  l.map (fun s => if s.id = tid then { s with selected := !s.selected } else s)

/-- Claim C10: toggling by id flips only the `selected` field of matching
candidates — ids, contents, image ids, underline flags, list length and
order are all unchanged, and a toggle with an id that matches nothing is
the identity. -/
theorem toggleSentence_frame (l : List Candidate) (tid : String) :
    ((toggleSentence tid l).map (fun s => s.id) = l.map (fun s => s.id) ∧
     (toggleSentence tid l).map (fun s => s.content) = l.map (fun s => s.content) ∧
     (toggleSentence tid l).map (fun s => s.imageId) = l.map (fun s => s.imageId) ∧
     (toggleSentence tid l).map (fun s => s.isUnderlined) = l.map (fun s => s.isUnderlined)) ∧
    (∀ i : Nat, (toggleSentence tid l)[i]? =
      (l[i]?).map (fun s => if s.id = tid then { s with selected := !s.selected } else s)) ∧
    ((∀ s ∈ l, s.id ≠ tid) → toggleSentence tid l = l) := by
  refine ⟨⟨?_, ?_, ?_, ?_⟩, ?_, ?_⟩
  · unfold toggleSentence
    rw [List.map_map]
    refine List.map_congr_left ?_
    intro s _
    by_cases h : s.id = tid <;> simp [h]
  · unfold toggleSentence
    rw [List.map_map]
    refine List.map_congr_left ?_
    intro s _
    by_cases h : s.id = tid <;> simp [h]
  · unfold toggleSentence
    rw [List.map_map]
    refine List.map_congr_left ?_
    intro s _
    by_cases h : s.id = tid <;> simp [h]
  · unfold toggleSentence
    rw [List.map_map]
    refine List.map_congr_left ?_
    intro s _
    by_cases h : s.id = tid <;> simp [h]
  · intro i
    simp [toggleSentence, List.getElem?_map]
  · intro h
    unfold toggleSentence
    conv_rhs => rw [← List.map_id l]
    refine List.map_congr_left ?_
    intro s hs
    simp [h s hs]

/-- Witness for C10 at a concrete input: toggling an id that matches no
candidate leaves the list unchanged. -/
theorem toggleSentence_frame_witness :
    toggleSentence "z" [Candidate.mk "a" "c" "img" true false] =
      [Candidate.mk "a" "c" "img" true false] :=
  (toggleSentence_frame [Candidate.mk "a" "c" "img" true false] "z").2.2 (by decide)

/-- A point in display coordinates.  JavaScript numbers appearing in the
geometry code are modelled as rationals: the intersection and threshold
logic is pure order arithmetic, exact in any ordered field. -/
structure Pt where
  x : ℚ
  y : ℚ
deriving DecidableEq

/-- An axis-aligned rectangle `{x, y, width, height}`. -/
structure Box where
  x : ℚ
  y : ℚ
  width : ℚ
  height : ℚ
deriving DecidableEq

/-- `checkIntersection` (manual-extract, lines 160-176): normalise the drag
endpoints with min/max, then the AABB overlap test
`!(selRight < lineLeft || selLeft > lineRight || selBottom < lineTop || selTop > lineBottom)`. -/
def checkIntersection (lineBox : Box) (selStart selEnd : Pt) : Bool :=
  let selLeft := min selStart.x selEnd.x
  let selRight := max selStart.x selEnd.x
  let selTop := min selStart.y selEnd.y
  let selBottom := max selStart.y selEnd.y
  let lineLeft := lineBox.x
  let lineRight := lineBox.x + lineBox.width
  let lineTop := lineBox.y
  let lineBottom := lineBox.y + lineBox.height
  !(decide (selRight < lineLeft) || decide (selLeft > lineRight) ||
    decide (selBottom < lineTop) || decide (selTop > lineBottom))

/-- A recognised text line with its display-space box (`SelectableTextLine`
of manual-extract). -/
structure ScaledTextLine where
  id : String
  text : String
  selected : Bool
  scaledBox : Box

/-- `updateSelectionFromDrag` (manual-extract, lines 179-189): recompute
`selected` for every line from the AABB test against the current drag. -/
def updateSelectionFromDrag (lns : List ScaledTextLine) (start finish : Pt) :
    List ScaledTextLine :=
  lns.map (fun line =>
    { line with selected := checkIntersection line.scaledBox start finish })

/-- Unfolding of the AABB test into its four defining inequalities. -/
theorem checkIntersection_eq_true_iff (b : Box) (s e : Pt) :
    checkIntersection b s e = true ↔
      ¬(max s.x e.x < b.x) ∧ ¬(min s.x e.x > b.x + b.width) ∧
      ¬(max s.y e.y < b.y) ∧ ¬(min s.y e.y > b.y + b.height) := by
  unfold checkIntersection
  simp only [Bool.not_eq_true', Bool.or_eq_false_iff, decide_eq_false_iff_not]
  tauto

/-- Claim C5: drag selection marks a line as selected exactly by the AABB
overlap test; a drag rectangle fully containing a (well-formed) box always
intersects it, and a zero-area drag touching no box intersects none. -/
theorem updateSelectionFromDrag_aabb :
    (∀ (lns : List ScaledTextLine) (s e : Pt),
      (updateSelectionFromDrag lns s e).map (fun l => l.selected) =
        lns.map (fun l => checkIntersection l.scaledBox s e)) ∧
    (∀ (b : Box) (s e : Pt), 0 ≤ b.width → 0 ≤ b.height →
      min s.x e.x ≤ b.x → b.x + b.width ≤ max s.x e.x →
      min s.y e.y ≤ b.y → b.y + b.height ≤ max s.y e.y →
      checkIntersection b s e = true) ∧
    (∀ (b : Box) (p : Pt),
      (p.x < b.x ∨ b.x + b.width < p.x ∨ p.y < b.y ∨ b.y + b.height < p.y) →
      checkIntersection b p p = false) := by
  refine ⟨?_, ?_, ?_⟩
  · intro lns s e
    simp [updateSelectionFromDrag]
  · intro b s e hw hh h1 h2 h3 h4
    rw [checkIntersection_eq_true_iff]
    refine ⟨not_lt.mpr (by linarith), not_lt.mpr (by linarith),
      not_lt.mpr (by linarith), not_lt.mpr (by linarith)⟩
  · intro b p h
    rw [Bool.eq_false_iff]
    intro hT
    rw [checkIntersection_eq_true_iff] at hT
    obtain ⟨n1, n2, n3, n4⟩ := hT
    simp only [min_self, max_self, not_lt, gt_iff_lt] at n1 n2 n3 n4
    rcases h with h | h | h | h <;> linarith

/-- Witness for C5 at concrete inputs: a drag from `(0,0)` to `(10,10)`
containing the box `(2,2,3,3)` selects it; a zero-area drag at `(0,0)`
does not select the distant box `(5,5,1,1)`. -/
theorem updateSelectionFromDrag_aabb_witness :
    checkIntersection (Box.mk 2 2 3 3) (Pt.mk 0 0) (Pt.mk 10 10) = true ∧
    checkIntersection (Box.mk 5 5 1 1) (Pt.mk 0 0) (Pt.mk 0 0) = false :=
  ⟨updateSelectionFromDrag_aabb.2.1 (Box.mk 2 2 3 3) (Pt.mk 0 0) (Pt.mk 10 10)
      (by decide) (by decide)
      (le_trans (min_le_left ((Pt.mk 0 0).x) ((Pt.mk 10 10).x)) (by decide))
      (le_trans (by norm_num) (le_max_right ((Pt.mk 0 0).x) ((Pt.mk 10 10).x)))
      (le_trans (min_le_left ((Pt.mk 0 0).y) ((Pt.mk 10 10).y)) (by decide))
      (le_trans (by norm_num) (le_max_right ((Pt.mk 0 0).y) ((Pt.mk 10 10).y))),
    updateSelectionFromDrag_aabb.2.2 (Box.mk 5 5 1 1) (Pt.mk 0 0)
      (Or.inl (by decide))⟩

/-- The in-progress/completed selection rectangle of the OCR-result screen,
in display coordinates. -/
structure SelRect where
  x : ℚ
  y : ℚ
  width : ℚ
  height : ℚ
deriving DecidableEq

/-- The displayed-image layout (`imageLayout` width/height). -/
structure DisplayLayout where
  width : ℚ
  height : ℚ
deriving DecidableEq

/-- The collaborator calls `handleExtractSelection` can issue, in order:
reading the image size (`ImageManipulator.manipulateAsync(uri, [])`),
cropping, and the re-OCR call (`performStructuredOCR`). -/
inductive CollabCall where
  | imageInfo
  | cropImage
  | reOCR
deriving DecidableEq

/-- The crop region in source-image pixels (ocr-result, lines 279-284). -/
structure CropRegionPx where
  originX : Int
  originY : Int
  width : Int
  height : Int
deriving DecidableEq

/-- JavaScript `Math.round`: round half toward positive infinity. -/
def jsRound (q : ℚ) : Int := Int.floor (q + 1 / 2)

/-- The possible outcomes of `handleExtractSelection`. -/
inductive ExtractOutcome where
  | missingInput
  | tooSmall
  | emptyCrop
  | extracted (region : CropRegionPx)
deriving DecidableEq

/-- `handleExtractSelection` (ocr-result, lines 259-325): guard for missing
selection/image/layout, then the `width < 20 || height < 20` rejection
BEFORE any collaborator call, then image-info, crop and re-OCR calls with
the inverse-scaled, rounded crop region; an empty OCR paragraph list
reports the empty-crop condition.  Collaborator results (true image size
and the re-OCR paragraph count) are oracle parameters; the second
component of the result lists the collaborator calls actually issued,
in order. -/
def handleExtractSelection (sel : Option SelRect) (hasImageUri hasImageId : Bool)
    (layout : Option DisplayLayout) (imageW imageH : ℚ) (ocrParagraphCount : Nat) :
    ExtractOutcome × List CollabCall :=
  match sel, hasImageUri, hasImageId, layout with
  | some r, true, true, some lay =>
    if r.width < 20 ∨ r.height < 20 then (ExtractOutcome.tooSmall, [])
    else
      let scaleX := imageW / lay.width
      let scaleY := imageH / lay.height
      let crop := CropRegionPx.mk (jsRound (r.x * scaleX)) (jsRound (r.y * scaleY))
        (jsRound (r.width * scaleX)) (jsRound (r.height * scaleY))
      if ocrParagraphCount = 0 then
        (ExtractOutcome.emptyCrop,
          [CollabCall.imageInfo, CollabCall.cropImage, CollabCall.reOCR])
      else
        (ExtractOutcome.extracted crop,
          [CollabCall.imageInfo, CollabCall.cropImage, CollabCall.reOCR])
  | _, _, _, _ => (ExtractOutcome.missingInput, [])

/-- Claim C6: a completed selection with `width < 20` or `height < 20`
display pixels is rejected with the selection-too-small condition and no
collaborator (image-info, crop or re-OCR) call is issued. -/
theorem handleExtractSelection_rejects_small (r : SelRect) (lay : DisplayLayout)
    (imageW imageH : ℚ) (n : Nat) (h : r.width < 20 ∨ r.height < 20) :
    handleExtractSelection (some r) true true (some lay) imageW imageH n =
      (ExtractOutcome.tooSmall, []) := by
  simp only [handleExtractSelection]
  rw [if_pos h]

/-- Witness for C6 at the claim's concrete input: a selection of width 15
and height 30 is rejected before any collaborator call. -/
theorem handleExtractSelection_rejects_small_witness :
    handleExtractSelection (some (SelRect.mk 0 0 15 30)) true true
      (some (DisplayLayout.mk 300 400)) 1200 1600 1 =
      (ExtractOutcome.tooSmall, []) :=
  handleExtractSelection_rejects_small (SelRect.mk 0 0 15 30)
    (DisplayLayout.mk 300 400) 1200 1600 1 (by decide)

/-- A JSON value; `JSON.parse` itself is a JavaScript builtin, passed to
the parser as an oracle `List Char → Option JsonValue` that returns `none`
exactly when parsing throws. -/
inductive JsonValue where
  | null
  | bool (b : Bool)
  | num (q : ℚ)
  | str (s : List Char)
  | arr (elems : List JsonValue)
  | obj (fields : List (List Char × JsonValue))

/-- Property access `parsed.name` on a parsed JSON value: a field of an
object, `undefined` (here `none`) otherwise. -/
def jsonField : JsonValue → List Char → Option JsonValue
  | JsonValue.obj fields, name => (fields.find? (fun f => f.1 = name)).map (fun f => f.2)
  | _, _ => none

/-- `Array.isArray(v) ? v : []` on an optional JSON value. -/
def jsonArrayOrEmpty : Option JsonValue → List JsonValue
  | some (JsonValue.arr xs) => xs
  | _ => []

/-- `typeof v === 'string' ? v : null`. -/
def jsonStringOrNull : Option JsonValue → Option (List Char)
  | some (JsonValue.str s) => some s
  | _ => none

/-- `typeof v === 'number' ? v : null`. -/
def jsonNumberOrNull : Option JsonValue → Option ℚ
  | some (JsonValue.num q) => some q
  | _ => none

/-- The `OCRStructuredResult` record of the OCR service (google-vision,
lines 13-18); the array fields hold the parsed JSON array elements
verbatim (the source performs no per-element validation). -/
structure OCRStructuredResult where
  paragraphs : List JsonValue
  underlinedSentences : List JsonValue
  bookTitle : Option (List Char)
  pageNumber : Option ℚ

/-- The all-empty `defaultResult` of `parseGeminiResponse` (google-vision,
lines 233-238), also stored for a failed image by the batch loop. -/
def defaultOCRStructuredResult : OCRStructuredResult :=
  OCRStructuredResult.mk [] [] none none

/-- Split at the first occurrence of `pat`: the part before it and the part
after it (models leftmost literal/regex-literal search). -/
def splitFirstOccur (pat : List Char) : List Char → Option (List Char × List Char)
  | [] => if listStartsWith pat [] then some ([], []) else none
  | c :: rest =>
    if listStartsWith pat (c :: rest) then some ([], (c :: rest).drop pat.length)
    else
      match splitFirstOccur pat rest with
      | some (pre, post) => some (c :: pre, post)
      | none => none

/-- The code-fence regex `/```json\s*([\s\S]*?)\s*```/` (google-vision,
line 243): the capture is the text between the first occurrence of
"```json" and the next "```", with the surrounding whitespace consumed by
the greedy `\s*` before the lazy group and the `\s*` before the closing
fence — i.e. the trimmed in-between text.  `none` when the regex does not
match (no opening marker, or no closing fence after it; a later "```json"
would itself contain "```", so no backtracking to a later start can
succeed either). -/
def findJsonFence (s : List Char) : Option (List Char) :=
  match splitFirstOccur ("```json".toList) s with
  | none => none
  | some (_, afterMarker) =>
    match splitFirstOccur ("```".toList) afterMarker with
    | some (pre, _) => some (trimChars pre)
    | none => none

/-- Whether `pat` is a final segment of `l`. -/
def listEndsWith (pat l : List Char) : Bool :=
  listStartsWith pat.reverse l.reverse

/-- The fence-stripping preamble of `parseGeminiResponse` (google-vision,
lines 241-248): trim, take a ```json fenced block if present, else strip a
plain ``` fence (`slice(3, -3).trim()`), else use the trimmed text. -/
def extractJsonBlock (responseText : List Char) : List Char :=
  let jsonStr := trimChars responseText
  match findJsonFence jsonStr with
  | some captured => captured
  | none =>
    if listStartsWith ("```".toList) jsonStr && listEndsWith ("```".toList) jsonStr then
      trimChars ((jsonStr.drop 3).take (jsonStr.length - 6))
    else jsonStr

/-- `parseGeminiResponse` (google-vision, lines 232-269): extract the JSON
block, parse it with the `JSON.parse` oracle, validate the fields; when
parsing throws, fall back to the whole trimmed raw response text as a
single paragraph if it is nonempty, else the all-empty default. -/
def parseGeminiResponse (jsonParse : List Char → Option JsonValue)
    (responseText : List Char) : OCRStructuredResult :=
  match jsonParse (extractJsonBlock responseText) with
  | some parsed =>
    OCRStructuredResult.mk
      (jsonArrayOrEmpty (jsonField parsed ("paragraphs".toList)))
      (jsonArrayOrEmpty (jsonField parsed ("underlinedSentences".toList)))
      (jsonStringOrNull (jsonField parsed ("bookTitle".toList)))
      (jsonNumberOrNull (jsonField parsed ("pageNumber".toList)))
  | none =>
    if (trimChars responseText).length ≠ 0 then
      OCRStructuredResult.mk [JsonValue.str (trimChars responseText)] [] none none
    else defaultOCRStructuredResult

/-- Claim C8, counterexample: an empty (or whitespace-only) response text
cannot be parsed as JSON (`JSON.parse("")` throws), yet the fallback
produces the EMPTY paragraph list, not the one-element list holding the
trimmed raw text. -/
theorem parseGeminiResponse_empty_fallback :
    parseGeminiResponse (fun _ => none) [] = defaultOCRStructuredResult ∧
    (parseGeminiResponse (fun _ => none) []).paragraphs ≠
      [JsonValue.str (trimChars [])] :=
  ⟨rfl, fun h => List.noConfusion h⟩

/-- Claim C8 as amended: when the structured response text cannot be parsed
as JSON and the trimmed raw text is nonempty, the parser falls back to a
result whose paragraphs are exactly the one-element list holding the
trimmed raw text, with empty underlined sentences and null metadata; a
whitespace-only raw text yields the all-empty default instead. -/
theorem parseGeminiResponse_fallback (jsonParse : List Char → Option JsonValue)
    (text : List Char) (hfail : jsonParse (extractJsonBlock text) = none)
    (hne : (trimChars text).length ≠ 0) :
    parseGeminiResponse jsonParse text =
      OCRStructuredResult.mk [JsonValue.str (trimChars text)] [] none none := by
  unfold parseGeminiResponse
  rw [hfail]
  simp only []
  rw [if_pos hne]

/-- Witness for C8 (amended) at a concrete input: a failing parse over the
raw text `"hello"` falls back to the single paragraph `"hello"`. -/
theorem parseGeminiResponse_fallback_witness :
    parseGeminiResponse (fun _ => none) ("hello".toList) =
      OCRStructuredResult.mk [JsonValue.str ("hello".toList)] [] none none :=
  parseGeminiResponse_fallback (fun _ => none) ("hello".toList) rfl (by decide)

/-- The observable events of one batch OCR run, in chronological order:
each progress-callback invocation and each per-image OCR call. -/
inductive BatchEvent (σ : Type) where
  | progress (current total : Nat)
  | ocrCall (uri : σ)
deriving DecidableEq

/-- `Map.prototype.set`: replace the value in place when the key exists,
else append (insertion order is preserved). -/
def mapSet {σ : Type} [DecidableEq σ] (k : σ) (v : OCRStructuredResult) :
    List (σ × OCRStructuredResult) → List (σ × OCRStructuredResult)
  | [] => [(k, v)]
  | (k2, v2) :: rest =>
    if k2 = k then (k, v) :: rest else (k2, v2) :: mapSet k v rest

/-- The loop of `performBatchStructuredOCR` (google-vision, lines 334-349):
for index `i`, first `onProgress?.(i + 1, total)`, then the awaited
`performStructuredOCR` call; a throwing call stores the all-empty default
result and the loop continues.  The OCR collaborator is the oracle `ocr`
(`some r` a successful call, `none` a thrown error); the first component
is the chronological event trace. -/
def batchGo {σ : Type} [DecidableEq σ] (ocr : σ → Option OCRStructuredResult)
    (total : Nat) : Nat → List σ → List (σ × OCRStructuredResult) →
    List (BatchEvent σ) × List (σ × OCRStructuredResult)
  | _, [], results => ([], results)
  | i, uri :: rest, results =>
    let stored :=
      match ocr uri with
      | some r => r
      | none => defaultOCRStructuredResult
    let next := batchGo ocr total (i + 1) rest (mapSet uri stored results)
    (BatchEvent.progress (i + 1) total :: BatchEvent.ocrCall uri :: next.1, next.2)

/-- `performBatchStructuredOCR` (google-vision, lines 326-352). -/
def performBatchStructuredOCR {σ : Type} [DecidableEq σ]
    (ocr : σ → Option OCRStructuredResult) (uris : List σ) :
    List (BatchEvent σ) × List (σ × OCRStructuredResult) :=
  batchGo ocr uris.length 0 uris []

/-- The event trace the amended claim describes, written independently of
the implementation: images strictly in input order, one progress callback
per image reporting `i + 1` of `total`, issued immediately BEFORE that
image's OCR call. -/
def specBatchTrace {σ : Type} (total : Nat) : Nat → List σ → List (BatchEvent σ)
  | _, [] => []
  | i, uri :: rest =>
    BatchEvent.progress (i + 1) total :: BatchEvent.ocrCall uri ::
      specBatchTrace total (i + 1) rest

/-- Claim C9, counterexample: for a single image the progress callback
fires BEFORE the image's OCR call, not after it has completed — the trace
is `[progress 1 1, ocrCall 7]`, not `[ocrCall 7, progress 1 1]`. -/
theorem performBatchStructuredOCR_progress_first :
    (performBatchStructuredOCR (fun _ : Nat => some defaultOCRStructuredResult) [7]).1 =
      [BatchEvent.progress 1 1, BatchEvent.ocrCall 7] ∧
    (performBatchStructuredOCR (fun _ : Nat => some defaultOCRStructuredResult) [7]).1 ≠
      [BatchEvent.ocrCall 7, BatchEvent.progress 1 1] :=
  ⟨rfl, by decide⟩

/-- The batch loop trace is independent of the accumulated results and
matches the specified trace. -/
theorem batchGo_trace {σ : Type} [DecidableEq σ]
    (ocr : σ → Option OCRStructuredResult) (total : Nat) :
    ∀ (uris : List σ) (i : Nat) (results : List (σ × OCRStructuredResult)),
    (batchGo ocr total i uris results).1 = specBatchTrace total i uris := by
  intro uris
  induction uris with
  | nil => intro i results; rfl
  | cons u rest ih =>
    intro i results
    simp only [batchGo, specBatchTrace]
    rw [ih]

/-- Claim C9 as amended: batch structured OCR processes the images strictly
sequentially in input order, one at a time, and invokes the progress
callback exactly once per image, immediately BEFORE that image's OCR call
is issued (reporting `i + 1` of `N`) — not after its completion. -/
theorem performBatchStructuredOCR_trace {σ : Type} [DecidableEq σ]
    (ocr : σ → Option OCRStructuredResult) (uris : List σ) :
    (performBatchStructuredOCR ocr uris).1 = specBatchTrace uris.length 0 uris :=
  batchGo_trace ocr uris.length uris 0 []
